import Mathlib

/-!
# Verification of the agent runtime core of `my-ai-office`

Shallow embedding of `src/core/base-agent.ts` (the `BaseAgent` class):
the delegation/memory-extraction protocol (`parseResponse`), the
memory-augmented prompt builder (`buildSystemPrompt`), the tool-execution
loop (`executeTools` and the `chat` tool-use loop).  Strings are modelled
as Lean `String`/`List Char`; the two JavaScript regular expressions
`/\[DELEGATE:(\w+)\]/` and `/\[REMEMBER:(\w+)\|(.*?)\]/g` are embedded as
explicit left-to-right scanners with the exact JS semantics (`\w` is
`[A-Za-z0-9_]`, `.` excludes line terminators, lazy `.*?` before `]`).
The persistent store (`src/memory/database.ts`, not among the sources) is
modelled from the spec; the reasoning backend is modelled as a script of
responses consumed in order.
-/

namespace MyAiOffice

/-- JS `\w` word-character class: `[A-Za-z0-9_]`. -/
def isWordChar (c : Char) : Bool :=
  ('a' ≤ c && c ≤ 'z') || ('A' ≤ c && c ≤ 'Z') || ('0' ≤ c && c ≤ '9') || c = '_'

/-- JS line terminators, which `.` (without the `s` flag) does not match. -/
def isLineTerm (c : Char) : Bool :=
  c = '\n' || c = '\r' || c = Char.ofNat 0x2028 || c = Char.ofNat 0x2029

/-- Characters matched by JS `.` without the `s` flag. -/
def isDotChar (c : Char) : Bool := !isLineTerm c

/-- The white-space characters removed by JS `String.prototype.trim`
(ASCII whitespace, NBSP, BOM and the line terminators). -/
def isJsSpace (c : Char) : Bool :=
  c = ' ' || c = '\t' || c = '\n' || c = '\r' ||
  c = Char.ofNat 0x0b || c = Char.ofNat 0x0c ||
  c = Char.ofNat 0xa0 || c = Char.ofNat 0xfeff ||
  c = Char.ofNat 0x2028 || c = Char.ofNat 0x2029

/-- Strip a literal character sequence from the front of the input,
returning the remainder on success. -/
def stripLit : List Char → List Char → Option (List Char)
  | [], cs => some cs
  | _ :: _, [] => none
  | l :: ls, c :: cs => if c = l then stripLit ls cs else none

/-- Content predicate for the lazy `.*?` capture that must stop at `]`:
a content character is any `.`-matchable character other than `]`. -/
def isRemContentChar (c : Char) : Bool := c ≠ ']' && isDotChar c

/-- Try to match `/\[DELEGATE:(\w+)\]/` at the start of the input.
Returns the captured token and the remainder after the match. -/
def matchDelegAt (cs : List Char) : Option (List Char × List Char) :=
  match stripLit "[DELEGATE:".data cs with
  | none => none
  | some r1 =>
    let tok := r1.takeWhile isWordChar
    let r2 := r1.dropWhile isWordChar
    if tok.isEmpty then none
    else
      match r2 with
      | ']' :: r3 => some (tok, r3)
      | _ => none

/-- Try to match `/\[REMEMBER:(\w+)\|(.*?)\]/` at the start of the input.
Returns the captured kind and content and the remainder after the match. -/
def matchRemAt (cs : List Char) : Option (List Char × List Char × List Char) :=
  match stripLit "[REMEMBER:".data cs with
  | none => none
  | some r1 =>
    let kind := r1.takeWhile isWordChar
    let r2 := r1.dropWhile isWordChar
    if kind.isEmpty then none
    else
      match r2 with
      | '|' :: r3 =>
        let content := r3.takeWhile isRemContentChar
        let r4 := r3.dropWhile isRemContentChar
        match r4 with
        | ']' :: r5 => some (kind, content, r5)
        | _ => none
      | _ => none

/-- The full text of a delegation directive with token `tok`. -/
def delegText (tok : List Char) : List Char := "[DELEGATE:".data ++ tok ++ [']']

/-- The full text of a memory directive with kind `k` and content `ct`. -/
def remText (k ct : List Char) : List Char := "[REMEMBER:".data ++ k ++ ['|'] ++ ct ++ [']']

/-- The first match of `text.match(/\[DELEGATE:(\w+)\]/)`: scan left to
right and return the first captured token, if any. -/
def delegFirst : List Char → Option (List Char)
  | [] => none
  | c :: cs =>
    match matchDelegAt (c :: cs) with
    | some (tok, _) => some tok
    | none => delegFirst cs

/-- Fuelled body of the global scan `/\[DELEGATE:(\w+)\]/g` collecting the
captured tokens of the non-overlapping matches, left to right, resuming
after each match.  The fuel only forces structural recursion; every step
consumes at least one character, so `fuel = length` is always enough. -/
def delegTokensAux : Nat → List Char → List (List Char)
  | 0, _ => []
  | _ + 1, [] => []
  | fuel + 1, c :: cs =>
    match matchDelegAt (c :: cs) with
    | some (tok, rest) => tok :: delegTokensAux fuel rest
    | none => delegTokensAux fuel cs

/-- All captured tokens of the global scan `/\[DELEGATE:(\w+)\]/g`. -/
def delegTokens (cs : List Char) : List (List Char) :=
  delegTokensAux cs.length cs

/-- Fuelled body of `text.replace(/\[DELEGATE:\w+\]/g, '')`: remove every
match of the global scan, keeping all other characters. -/
def delegStripAux : Nat → List Char → List Char
  | 0, cs => cs
  | _ + 1, [] => []
  | fuel + 1, c :: cs =>
    match matchDelegAt (c :: cs) with
    | some (_, rest) => delegStripAux fuel rest
    | none => c :: delegStripAux fuel cs

/-- `text.replace(/\[DELEGATE:\w+\]/g, '')`. -/
def delegStrip (cs : List Char) : List Char :=
  delegStripAux cs.length cs

/-- Fuelled body of `text.matchAll(/\[REMEMBER:(\w+)\|(.*?)\]/g)`
collecting the `(kind, content)` captures of the non-overlapping matches,
left to right, resuming after each match. -/
def remMatchAllAux : Nat → List Char → List (List Char × List Char)
  | 0, _ => []
  | _ + 1, [] => []
  | fuel + 1, c :: cs =>
    match matchRemAt (c :: cs) with
    | some (k, ct, rest) => (k, ct) :: remMatchAllAux fuel rest
    | none => remMatchAllAux fuel cs

/-- All `(kind, content)` captures of `/\[REMEMBER:(\w+)\|(.*?)\]/g`. -/
def remMatchAll (cs : List Char) : List (List Char × List Char) :=
  remMatchAllAux cs.length cs

/-- Fuelled body of `text.replace(/\[REMEMBER:\w+\|.*?\]/g, '')`: remove
every match of the global scan, keeping all other characters. -/
def remStripAux : Nat → List Char → List Char
  | 0, cs => cs
  | _ + 1, [] => []
  | fuel + 1, c :: cs =>
    match matchRemAt (c :: cs) with
    | some (_, _, rest) => remStripAux fuel rest
    | none => c :: remStripAux fuel cs

/-- `text.replace(/\[REMEMBER:\w+\|.*?\]/g, '')`. -/
def remStrip (cs : List Char) : List Char :=
  remStripAux cs.length cs

/-- JS `String.prototype.trim`: drop white-space from both ends. -/
def trimChars (cs : List Char) : List Char :=
  (cs.dropWhile isJsSpace).rdropWhile isJsSpace

/-- One memory record as assembled by `parseResponse` / stored by
`saveMemory` (the TypeScript `Memory` shape omitting the id and createdAt fields). -/
structure MemRecord where
  type : String
  content : String
  metadata : List (String × String)
  agentRole : Option String
deriving DecidableEq, Repr

/-- The TypeScript `AgentResponse` shape returned by `parseResponse`/`chat`
(`toolCalls` is never set by `BaseAgent` and is omitted). -/
structure AgentResponse where
  content : String
  delegateTo : Option String
  memoriesToStore : Option (List MemRecord)
deriving DecidableEq, Repr

/-- `BaseAgent.parseResponse`: find the first `[DELEGATE:\w+]` match, all
`[REMEMBER:\w+|.*?]` matches, build one memory record per match (empty
metadata, the current role attached), and strip all directive matches from
the text (DELEGATE replacement first, then REMEMBER, then trim). -/
def parseResponse (role : String) (text : String) : AgentResponse :=
  let cs := text.data
  let delegateMatch := delegFirst cs
  let memoryMatches := remMatchAll cs
  let memoriesToStore : List MemRecord := memoryMatches.map fun m =>
    { type := String.mk m.1, content := String.mk m.2, metadata := [],
      agentRole := some role }
  let cleanText := String.mk (trimChars (remStrip (delegStrip cs)))
  { content := cleanText
    delegateTo := delegateMatch.map String.mk
    memoriesToStore := if memoriesToStore.isEmpty then none else some memoriesToStore }

/-- One persisted conversation turn (`saveConversationMessage` payload). -/
structure Turn where
  role : String
  content : String
  agentRole : Option String
deriving DecidableEq, Repr

/-- One stored user preference row. -/
structure Pref where
  key : String
  value : String
  category : String
deriving DecidableEq, Repr

/-- Modelled from the spec: the persistent memory store
(`src/memory/database.ts` is not among the sources).  The conversation
history of one session in chronological order, the memory rows
most-recent-first (the order every read returns), and the preference rows
in the order `listPreferences` returns them. -/
structure Store where
  history : List Turn
  memories : List MemRecord
  preferences : List Pref
deriving DecidableEq, Repr

/-- Modelled from the spec: `appendTurn` — append-only write of one
conversation turn at the chronological end of the session history. -/
def saveConversationMessage (st : Store) (t : Turn) : Store :=
  { st with history := st.history ++ [t] }

/-- Modelled from the spec: `getHistory` — the session history in
chronological order (oldest first), replayed verbatim into the backend. -/
def getConversationHistory (st : Store) : List Turn :=
  st.history

/-- Modelled from the spec: memory `write(record)` — append a memory row;
rows are immutable once written.  The row becomes the most recent. -/
def saveMemory (st : Store) (m : MemRecord) : Store :=
  { st with memories := m :: st.memories }

/-- Modelled from the spec: `read(filterByKind?, filterByRole?, limit)` —
most-recent-first memories, optionally filtered by kind and by owning
role, truncated to `limit`.  This is `getMemories(type?, agentRole?, limit)`
as called by `buildSystemPrompt`. -/
def getMemories (st : Store) (kind : Option String) (role : Option String)
    (limit : Nat) : List MemRecord :=
  (((st.memories.filter fun m =>
      match kind with | none => true | some k => m.type = k).filter fun m =>
      match role with | none => true | some r => m.agentRole = some r).take limit)

/-- Modelled from the spec: `listPreferences()` with no category filter —
every current preference row, globally (no role scoping exists for
preferences). -/
def getAllPreferences (st : Store) : List Pref :=
  st.preferences

/-- The categories of a preference list in first-occurrence order — the
iteration order of the JS object built by `preferences.reduce(...)` and
read back with `Object.entries` in `buildSystemPrompt`. -/
def prefCategories (ps : List Pref) : List String :=
  ps.foldl (fun acc p => if p.category ∈ acc then acc else acc ++ [p.category]) []

/-- `BaseAgent.buildSystemPrompt`: static role prompt, then (if any
preferences exist) all preferences grouped by category as `- key: value`
lines, then (if any role-scoped memories exist) the 20 most recent
memories of this role truncated to 10 as `- [kind] content` lines. -/
def buildSystemPrompt (role systemPrompt : String) (st : Store) : String :=
  let preferences := getAllPreferences st
  let recentMemories := getMemories st none (some role) 20
  let prompt := systemPrompt
  let prompt :=
    if preferences.length > 0 then
      prompt ++ "\n\n## User Preferences (learned over time)\n" ++
        String.join ((prefCategories preferences).map fun category =>
          "\n### " ++ category ++ "\n" ++
            String.join ((preferences.filter fun p => p.category = category).map
              fun pref => "- " ++ pref.key ++ ": " ++ pref.value ++ "\n"))
    else prompt
  let prompt :=
    if recentMemories.length > 0 then
      prompt ++ "\n\n## Recent Context\n" ++
        String.join ((recentMemories.take 10).map fun mem =>
          "- [" ++ mem.type ++ "] " ++ mem.content ++ "\n")
    else prompt
  prompt

/-- One content block of a backend response: a text block or a tool-use
request `{id, name, input}` (the input serialised opaquely). -/
inductive ContentBlock where
  | text (s : String)
  | toolUse (id name input : String)
deriving DecidableEq, Repr

/-- One backend response: a stop reason (`"tool_use"` requests tool
execution, anything else is a final answer) and its content blocks. -/
structure BackendResponse where
  stopReason : String
  content : List ContentBlock
deriving DecidableEq, Repr

/-- One requested tool invocation (`Anthropic.ToolUseBlock`). -/
structure ToolUseBlock where
  id : String
  name : String
  input : String
deriving DecidableEq, Repr

/-- One tool result block (`Anthropic.ToolResultBlockParam`); a success
result leaves `is_error` unset, which we model as `false`. -/
structure ToolResultBlock where
  tool_use_id : String
  content : String
  is_error : Bool
deriving DecidableEq, Repr

/-- One registered tool.  `execute` acts on an explicit world `W` (the
side effects of the tool) and either returns result text or fails with an error
message — a thrown JS error is modelled as `Except.error`. -/
structure ToolDef (W : Type) where
  name : String
  description : String
  execute : String → W → Except String String × W

/-- `BaseAgent.executeTools`: iterate the requested invocations in order;
look each tool up by name in the registry of the role (`config.tools.find`),
run it if found (converting a raised error into an `is_error` result block
with an `Error: ...` message), and push nothing if the name is unknown.
Execution is sequential: each call runs on the world the previous one
left. -/
def executeTools {W : Type} (tools : List (ToolDef W))
    (calls : List ToolUseBlock) (w : W) : List ToolResultBlock × W :=
  match calls with
  | [] => ([], w)
  | call :: rest =>
    match tools.find? (fun t => t.name == call.name) with
    | some tool =>
      match tool.execute call.input w with
      | (Except.ok res, w1) =>
        let (bs, w2) := executeTools tools rest w1
        ({ tool_use_id := call.id, content := res, is_error := false } :: bs, w2)
      | (Except.error e, w1) =>
        let (bs, w2) := executeTools tools rest w1
        ({ tool_use_id := call.id,
           content := "Error: " ++ e, is_error := true } :: bs, w2)
    | none => executeTools tools rest w

/-- The content of one outgoing message: a replayed history string, the
content blocks of a backend response, or a list of tool results. -/
inductive MsgContent where
  | text (s : String)
  | blocks (bs : List ContentBlock)
  | results (rs : List ToolResultBlock)
deriving DecidableEq, Repr

/-- One entry of the outgoing message list (`Anthropic.MessageParam`). -/
structure MessageParam where
  role : String
  content : MsgContent
deriving DecidableEq, Repr

/-- The message-list composition step of `BaseAgent.chat`: map the
replayed history to `{role, content}` entries, then push the current user
message unless the list is non-empty and the content of its last entry equals
the user message. -/
def composeMessages (history : List Turn) (userMessage : String) :
    List MessageParam :=
  let messages := history.map fun m =>
    ({ role := m.role, content := MsgContent.text m.content } : MessageParam)
  if messages.length = 0 ∨
      messages.getLast?.map MessageParam.content ≠ some (MsgContent.text userMessage) then
    messages ++ [{ role := "user", content := MsgContent.text userMessage }]
  else messages

/-- The agent configuration consumed by the loop: role, static system
prompt and the tool registry of the role. -/
structure ChatConfig (W : Type) where
  role : String
  systemPrompt : String
  tools : List (ToolDef W)

/-- The tool-use `while` loop of `BaseAgent.chat`, iterating as long as
the stop reason of the response equals `tool_use`.  The reasoning backend is a script of responses consumed
one per round; an exhausted script is a backend failure (`none`,
propagated to the caller).  A `tool_use` round filters the tool-use
blocks, executes them in order, appends the assistant tool-request message
and the user tool-result message, and re-invokes; any other stop reason is
the final answer. -/
def chatLoop {W : Type} (cfg : ChatConfig W) (script : List BackendResponse)
    (messages : List MessageParam) (w : W) :
    Option (BackendResponse × List MessageParam × W) :=
  match script with
  | [] => none
  | response :: rest =>
    if response.stopReason = "tool_use" then
      let toolUseBlocks := response.content.filterMap fun b =>
        match b with
        | ContentBlock.toolUse id name input => some (⟨id, name, input⟩ : ToolUseBlock)
        | _ => none
      let (toolResults, w1) := executeTools cfg.tools toolUseBlocks w
      chatLoop cfg rest
        (messages ++ [{ role := "assistant", content := MsgContent.blocks response.content },
                      { role := "user", content := MsgContent.results toolResults }]) w1
    else
      some (response, messages, w)

/-- The memory-storing step at the end of `BaseAgent.chat`: save every
extracted memory record (none when `memoriesToStore` is undefined). -/
def storeMemories (a : AgentResponse) (st : Store) : Store :=
  match a.memoriesToStore with
  | some mems => mems.foldl saveMemory st
  | none => st

/-- `BaseAgent.chat`: persist the user turn, replay the session history
into the message list, run the tool-use loop against the scripted backend,
take the first text block of the final response (empty string if none),
persist it as the assistant turn tagged with the role of the agent, parse the
directives out of it, and store every extracted memory. -/
def chat {W : Type} (cfg : ChatConfig W) (script : List BackendResponse)
    (st : Store) (w : W) (userMessage : String) :
    Option (AgentResponse × Store × W) :=
  let st1 := saveConversationMessage st
    { role := "user", content := userMessage, agentRole := none }
  let messages := composeMessages (getConversationHistory st1) userMessage
  match chatLoop cfg script messages w with
  | none => none
  | some (response, _, w1) =>
    let responseText := (response.content.findSome? fun b =>
      match b with
      | ContentBlock.text s => some s
      | _ => none).getD ""
    let st2 := saveConversationMessage st1
      { role := "assistant", content := responseText, agentRole := some cfg.role }
    let agentResponse := parseResponse cfg.role responseText
    let st3 := storeMemories agentResponse st2
    some (agentResponse, st3, w1)

/-- Glue a decomposition `[(m1,g1),...,(mk,gk)]` back into
`m1 ++ g1 ++ ... ++ mk ++ gk`. -/
def glueAll (ps : List (List Char × List Char)) : List Char :=
  ps.foldr (fun p acc => p.1 ++ p.2 ++ acc) []

/-- The gaps of a decomposition: `g1 ++ ... ++ gk`. -/
def glueGaps (ps : List (List Char × List Char)) : List Char :=
  ps.foldr (fun p acc => p.2 ++ acc) []

/-- The list of memory records a response carries (`memoriesToStore` with
`undefined` read as the empty list). -/
def storedMems (a : AgentResponse) : List MemRecord :=
  a.memoriesToStore.getD []

/-- A tool that records each invocation as `(name, input)` in the world
and succeeds; used to observe the number and order of executions. -/
def logTool (name : String) : ToolDef (List (String × String)) :=
  { name := name, description := ""
    execute := fun input w => (Except.ok "done", w ++ [(name, input)]) }

/-- A tool whose execution always raises with the given message. -/
def failTool (name msg : String) : ToolDef Unit :=
  { name := name, description := ""
    execute := fun _ w => (Except.error msg, w) }

/-- A store with no history, memories or preferences. -/
def emptyStore : Store :=
  { history := [], memories := [], preferences := [] }

/-- The preferences section of the instruction text, written from the
wording of the spec for §4.2: all current preferences (no role filter), grouped
by category, as `key: value` lines. -/
def prefsSectionSpec (ps : List Pref) : String :=
  if ps.isEmpty then "" else
    "\n\n## User Preferences (learned over time)\n" ++
      String.join ((prefCategories ps).map fun category =>
        "\n### " ++ category ++ "\n" ++
          String.join ((ps.filter fun p => p.category = category).map
            fun pref => "- " ++ pref.key ++ ": " ++ pref.value ++ "\n"))

/-- The recent-context section of the instruction text, written from the
wording of the spec for §4.2: the given memories as `[kind] content` lines. -/
def recentSectionSpec (ms : List MemRecord) : String :=
  if ms.isEmpty then "" else
    "\n\n## Recent Context\n" ++
      String.join (ms.map fun mem => "- [" ++ mem.type ++ "] " ++ mem.content ++ "\n")

/-- The instruction text as the spec describes it: the static role prompt,
then the preferences-by-category section over all current preferences,
then the recent-context section over at most 10 of the 20 most recent
memories filtered to the calling role — in exactly that order. -/
def buildSystemPromptSpec (role systemPrompt : String) (st : Store) : String :=
  systemPrompt ++ prefsSectionSpec (getAllPreferences st) ++
    recentSectionSpec (((st.memories.filter fun m =>
      m.agentRole = some role).take 20).take 10)

theorem stripLit_eq (ls : List Char) :
    ∀ cs r, stripLit ls cs = some r → cs = ls ++ r := by
  induction ls with
  | nil => intro cs r h; simpa [stripLit] using h
  | cons l ls ih =>
    intro cs r h
    cases cs with
    | nil => simp [stripLit] at h
    | cons c cs =>
      by_cases hc : c = l
      · simp [stripLit, hc] at h
        simpa [hc] using congrArg (l :: ·) (ih cs r h)
      · simp [stripLit, hc] at h


theorem matchDelegAt_eq {cs tok rest : List Char}
    (h : matchDelegAt cs = some (tok, rest)) :
    cs = delegText tok ++ rest ∧ tok ≠ [] ∧ ∀ c ∈ tok, isWordChar c = true := by
  unfold matchDelegAt at h
  cases hs : stripLit "[DELEGATE:".data cs with
  | none => rw [hs] at h; exact absurd h (by simp)
  | some r1 =>
    rw [hs] at h
    simp only at h
    by_cases htok : (r1.takeWhile isWordChar).isEmpty
    · rw [if_pos htok] at h; exact absurd h (by simp)
    · rw [if_neg htok] at h
      cases hr2 : r1.dropWhile isWordChar with
      | nil => rw [hr2] at h; exact absurd h (by simp)
      | cons c r3 =>
        rw [hr2] at h
        by_cases hc : c = ']'
        · subst hc
          simp only [Option.some.injEq, Prod.mk.injEq] at h
          obtain ⟨htk, hrst⟩ := h
          have hcs := stripLit_eq _ _ _ hs
          have hsplit : r1 = tok ++ ']' :: rest := by
            rw [← htk, ← hrst, ← hr2]
            exact (List.takeWhile_append_dropWhile ..).symm
          refine ⟨?_, ?_, ?_⟩
          · rw [hcs, hsplit, delegText]; simp
          · intro hnil
            apply htok
            rw [htk, hnil]
            rfl
          · intro c hc
            rw [← htk] at hc
            exact List.mem_takeWhile_imp hc
        · split at h
          · next heq =>
              injection heq with h1 h2
              exact absurd h1 hc
          · exact absurd h (by simp)

theorem matchDelegAt_length {cs tok rest : List Char}
    (h : matchDelegAt cs = some (tok, rest)) : rest.length < cs.length := by
  have := (matchDelegAt_eq h).1
  rw [this, delegText]
  simp
  omega

theorem matchRemAt_eq {cs k ct rest : List Char}
    (h : matchRemAt cs = some (k, ct, rest)) :
    cs = remText k ct ++ rest ∧ k ≠ [] ∧ (∀ c ∈ k, isWordChar c = true) ∧
      ∀ c ∈ ct, isRemContentChar c = true := by
  unfold matchRemAt at h
  cases hs : stripLit "[REMEMBER:".data cs with
  | none => rw [hs] at h; exact absurd h (by simp)
  | some r1 =>
    rw [hs] at h
    simp only at h
    by_cases hk : (r1.takeWhile isWordChar).isEmpty
    · rw [if_pos hk] at h; exact absurd h (by simp)
    · rw [if_neg hk] at h
      cases hr2 : r1.dropWhile isWordChar with
      | nil => rw [hr2] at h; exact absurd h (by simp)
      | cons c r3 =>
        rw [hr2] at h
        by_cases hc : c = '|'
        · subst hc
          simp only at h
          cases hr4 : r3.dropWhile isRemContentChar with
          | nil => rw [hr4] at h; exact absurd h (by simp)
          | cons d r5 =>
            rw [hr4] at h
            by_cases hd : d = ']'
            · subst hd
              simp only [Option.some.injEq, Prod.mk.injEq] at h
              obtain ⟨hk2, hct, hrst⟩ := h
              have hcs := stripLit_eq _ _ _ hs
              have hsplit1 : r1 = k ++ '|' :: r3 := by
                rw [← hk2, ← hr2]
                exact (List.takeWhile_append_dropWhile ..).symm
              have hsplit2 : r3 = ct ++ ']' :: rest := by
                rw [← hct, ← hrst, ← hr4]
                exact (List.takeWhile_append_dropWhile ..).symm
              refine ⟨?_, ?_, ?_, ?_⟩
              · rw [hcs, hsplit1, hsplit2, remText]; simp
              · intro hnil
                apply hk
                rw [hk2, hnil]
                rfl
              · intro c hcm
                rw [← hk2] at hcm
                exact List.mem_takeWhile_imp hcm
              · intro c hcm
                rw [← hct] at hcm
                exact List.mem_takeWhile_imp hcm
            · split at h
              · next heq =>
                  injection heq with h1 h2
                  exact absurd h1 hd
              · exact absurd h (by simp)
        · split at h
          · next heq =>
              injection heq with h1 h2
              exact absurd h1 hc
          · exact absurd h (by simp)

theorem matchRemAt_length {cs k ct rest : List Char}
    (h : matchRemAt cs = some (k, ct, rest)) : rest.length < cs.length := by
  have := (matchRemAt_eq h).1
  rw [this, remText]
  simp
  omega

theorem dropWhile_trimChars (cs : List Char) :
    (trimChars cs).dropWhile isJsSpace = trimChars cs := by
  unfold trimChars
  generalize hy : cs.dropWhile isJsSpace = y
  have hyy : y.dropWhile isJsSpace = y := by
    rw [← hy]; exact List.dropWhile_idempotent isJsSpace cs
  obtain ⟨r, hr⟩ := List.rdropWhile_prefix isJsSpace y
  cases ht : y.rdropWhile isJsSpace with
  | nil => simp
  | cons a t' =>
    rw [ht] at hr
    have hpa : ¬ isJsSpace a = true := by
      intro hpa
      rw [← hr] at hyy
      rw [List.cons_append] at hyy
      rw [List.dropWhile_cons] at hyy
      rw [if_pos hpa] at hyy
      have hlen := congrArg List.length hyy
      have hle : ((t' ++ r).dropWhile isJsSpace).length ≤ (t' ++ r).length :=
        (List.dropWhile_sublist isJsSpace).length_le
      simp only [List.length_cons, List.length_append] at hlen hle
      omega
    simp [List.dropWhile_cons, hpa]

theorem trimChars_idem (cs : List Char) :
    trimChars (trimChars cs) = trimChars cs := by
  have h1 := dropWhile_trimChars cs
  show ((trimChars cs).dropWhile isJsSpace).rdropWhile isJsSpace = trimChars cs
  rw [h1]
  unfold trimChars
  exact List.rdropWhile_idempotent isJsSpace _

theorem delegFirst_cons_none {c : Char} {cs : List Char}
    (h : delegFirst (c :: cs) = none) :
    matchDelegAt (c :: cs) = none ∧ delegFirst cs = none := by
  unfold delegFirst at h
  cases hm : matchDelegAt (c :: cs) with
  | some p => rw [hm] at h; exact absurd h (by simp)
  | none => rw [hm] at h; exact ⟨rfl, h⟩

theorem delegStripAux_of_first_none :
    ∀ (fuel : Nat) (cs : List Char), delegFirst cs = none →
      delegStripAux fuel cs = cs := by
  intro fuel
  induction fuel with
  | zero => intro cs _; rfl
  | succ fuel ih =>
    intro cs h
    cases cs with
    | nil => rfl
    | cons c cs =>
      obtain ⟨hm, hrest⟩ := delegFirst_cons_none h
      unfold delegStripAux
      rw [hm]
      rw [ih cs hrest]

theorem delegStrip_of_first_none {cs : List Char} (h : delegFirst cs = none) :
    delegStrip cs = cs :=
  delegStripAux_of_first_none cs.length cs h

theorem remStripAux_of_matchAll_nil :
    ∀ (fuel : Nat) (cs : List Char), remMatchAllAux fuel cs = [] →
      remStripAux fuel cs = cs := by
  intro fuel
  induction fuel with
  | zero => intro cs _; rfl
  | succ fuel ih =>
    intro cs h
    cases cs with
    | nil => rfl
    | cons c cs =>
      simp only [remMatchAllAux] at h
      simp only [remStripAux]
      cases hm : matchRemAt (c :: cs) with
      | some p =>
        obtain ⟨k, ct, rest⟩ := p
        simp [hm] at h
      | none =>
        simp [hm] at h ⊢
        exact ih cs h

theorem remStrip_of_matchAll_nil {cs : List Char} (h : remMatchAll cs = []) :
    remStrip cs = cs :=
  remStripAux_of_matchAll_nil cs.length cs h

/-- C5 (confirmed): applying extract to the exact input
`"Done. [DELEGATE:dev] [REMEMBER:preference|likes terse replies]"` yields
visible text `"Done."`, delegation target `"dev"`, and exactly one memory
record of kind `preference` with content `"likes terse replies"`, empty
metadata and the current role attached. -/
theorem delegation_parsing_example (role : String) :
    parseResponse role "Done. [DELEGATE:dev] [REMEMBER:preference|likes terse replies]" =
      { content := "Done.", delegateTo := some "dev",
        memoriesToStore := some [{ type := "preference",
                                   content := "likes terse replies",
                                   metadata := [],
                                   agentRole := some role }] } := by
  rfl

/-- C3 (counterexample): extract is not idempotent.  On
`"[DELEG[DELEGATE:x]ATE:y]"` the first pass removes the inner
`[DELEGATE:x]` and thereby splices the surrounding prose into a fresh
`[DELEGATE:y]` directive, so re-running extract on the visible text
returns a different visible text and a delegation target. -/
theorem extract_not_idempotent_cex :
    parseResponse "orchestrator"
        ((parseResponse "orchestrator" "[DELEG[DELEGATE:x]ATE:y]").content) ≠
      { content := (parseResponse "orchestrator" "[DELEG[DELEGATE:x]ATE:y]").content,
        delegateTo := none, memoriesToStore := none } := by
  decide

/-- C3 (amended): re-running extract on text already passed through
extract is a no-op provided the visible text of the first pass contains no
residual directive match (which removal can splice together out of the
surrounding prose): the second application returns the same visible text,
no delegation target and no memory records. -/
theorem extract_idempotent_of_clean (role text : String)
    (hd : delegFirst ((parseResponse role text).content).data = none)
    (hm : remMatchAll ((parseResponse role text).content).data = []) :
    parseResponse role ((parseResponse role text).content) =
      { content := (parseResponse role text).content,
        delegateTo := none, memoriesToStore := none } := by
  have hdata : ((parseResponse role text).content).data =
      trimChars (remStrip (delegStrip text.data)) := rfl
  rw [hdata] at hd hm
  unfold parseResponse
  simp only []
  rw [delegStrip_of_first_none hd, remStrip_of_matchAll_nil hm, hm, hd,
    trimChars_idem]
  rfl

/-- C3 (witness for the amended theorem). -/
theorem extract_idempotent_of_clean_witness :
    parseResponse "orchestrator"
        ((parseResponse "orchestrator" "Hello [DELEGATE:dev]").content) =
      { content := (parseResponse "orchestrator" "Hello [DELEGATE:dev]").content,
        delegateTo := none, memoriesToStore := none } :=
  extract_idempotent_of_clean "orchestrator" "Hello [DELEGATE:dev]"
    (by decide) (by decide)

/-- C6 (counterexample): a `[REMEMBER:kind|]` directive with empty
free-text produces a stored memory record whose content is the empty
string, so the extraction protocol does not guarantee non-empty content. -/
theorem remember_empty_content_cex :
    (parseResponse "orchestrator" "[REMEMBER:fact|]").memoriesToStore =
      some [{ type := "fact", content := "", metadata := [],
                                agentRole := some "orchestrator" }] := by
  decide

theorem remMatchAllAux_content :
    ∀ (fuel : Nat) (cs k ct : List Char), (k, ct) ∈ remMatchAllAux fuel cs →
      ∀ c ∈ ct, isRemContentChar c = true := by
  intro fuel
  induction fuel with
  | zero => intro cs k ct h; exact absurd h (by simp [remMatchAllAux])
  | succ fuel ih =>
    intro cs k ct h
    cases cs with
    | nil => exact absurd h (by simp [remMatchAllAux])
    | cons c cs =>
      simp only [remMatchAllAux] at h
      cases hm : matchRemAt (c :: cs) with
      | some p =>
        obtain ⟨k', ct', rest⟩ := p
        rw [hm] at h
        rcases List.mem_cons.mp h with heq | htail
        · injection heq with hk hct
          subst hct
          exact (matchRemAt_eq hm).2.2.2
        · exact ih rest k ct htail
      | none =>
        rw [hm] at h
        exact ih cs k ct h

/-- C6 (amended): every memory record created by the extraction protocol
has content equal to the free-text segment of the directive, whose characters
can never include `]` or a line terminator; the content may however be
empty (from `[REMEMBER:kind|]`), so the non-empty-content invariant fails
at exactly that input. -/
theorem remember_content_no_bracket (role text : String) (m : MemRecord)
    (hm : m ∈ storedMems (parseResponse role text)) :
    ∀ c ∈ m.content.data, c ≠ ']' ∧ isDotChar c = true := by
  intro c hc
  unfold parseResponse storedMems at hm
  simp only [] at hm
  split at hm
  · exact absurd hm (by simp)
  · simp only [Option.getD_some] at hm
    obtain ⟨⟨k, ct⟩, hmem, hrec⟩ := List.mem_map.mp hm
    subst hrec
    have := remMatchAllAux_content text.data.length text.data k ct hmem c hc
    simpa [isRemContentChar, Bool.and_eq_true, decide_eq_true_eq] using this

/-- C6 (witness for the amended theorem). -/
theorem remember_content_no_bracket_witness :
    ('a' : Char) ≠ ']' ∧ isDotChar 'a' = true :=
  remember_content_no_bracket "orchestrator" "[REMEMBER:fact|abc]"
    ⟨"fact", "abc", [], some "orchestrator"⟩ (by decide) 'a' (by decide)

/-- C2 (code bug evaluation): a round that requests one invocation of a
tool name absent from the registry of the role produces zero tool-result
blocks — the loop never echoes a result for that call-id, although the
backend interface requires one per call-id before re-invoking. -/
theorem executeTools_unknown_tool_dropped :
    executeTools ([] : List (ToolDef Unit))
        [{ id := "call_1", name := "missing_tool", input := "\x7b\x7d" }] () =
      ([], ()) := by
  rfl

theorem delegScanAux :
    ∀ (fuel : Nat) (cs : List Char), cs.length ≤ fuel →
      delegFirst cs = (delegTokensAux fuel cs).head? ∧
      ∃ g0 ps, cs = g0 ++ glueAll ps ∧
        delegStripAux fuel cs = g0 ++ glueGaps ps ∧
        ps.map Prod.fst = (delegTokensAux fuel cs).map delegText := by
  intro fuel
  induction fuel with
  | zero =>
    intro cs hlen
    have hnil : cs = [] := List.eq_nil_of_length_eq_zero (Nat.le_zero.mp hlen)
    subst hnil
    exact ⟨rfl, [], [], rfl, rfl, rfl⟩
  | succ fuel ih =>
    intro cs hlen
    cases cs with
    | nil => exact ⟨rfl, [], [], rfl, rfl, rfl⟩
    | cons c cs =>
      cases hm : matchDelegAt (c :: cs) with
      | some p =>
        obtain ⟨tok, rest⟩ := p
        have hrl : rest.length ≤ fuel := by
          have := matchDelegAt_length hm
          simp only [List.length_cons] at this hlen
          omega
        obtain ⟨ih1, g0, ps, hsplit, hstrip, htoks⟩ := ih rest hrl
        have hcseq : c :: cs = delegText tok ++ rest := (matchDelegAt_eq hm).1
        refine ⟨?_, [], (delegText tok, g0) :: ps, ?_, ?_, ?_⟩
        · simp [delegFirst, delegTokensAux, hm]
        · rw [hcseq, hsplit]
          simp [glueAll, List.append_assoc]
        · simp only [delegStripAux]
          simp [hm, hstrip, glueGaps]
        · simp [delegTokensAux, hm, htoks, glueAll]
      | none =>
        have hcl : cs.length ≤ fuel := by
          simp only [List.length_cons] at hlen
          omega
        obtain ⟨ih1, g0, ps, hsplit, hstrip, htoks⟩ := ih cs hcl
        refine ⟨?_, c :: g0, ps, ?_, ?_, ?_⟩
        · simp [delegFirst, delegTokensAux, hm, ih1]
        · rw [List.cons_append, ← hsplit]
        · simp only [delegStripAux]
          simp [hm, hstrip]
        · simp [delegTokensAux, hm, htoks]

/-- C8 (confirmed): for every input, extract honors at most the first
`[DELEGATE:<token>]` match as the delegation target (the head of the
global match list), and the delegate-replacement pass removes exactly the
matched directive spans: the input decomposes into gaps and match texts,
and the replacement output is the concatenation of the gaps alone,
regardless of how many matches appear. -/
theorem delegate_first_match_all_removed (role text : String) :
    (parseResponse role text).delegateTo =
      ((delegTokens text.data).head?).map String.mk ∧
    ∃ g0 ps, text.data = g0 ++ glueAll ps ∧
      delegStrip text.data = g0 ++ glueGaps ps ∧
      ps.map Prod.fst = (delegTokens text.data).map delegText := by
  obtain ⟨h1, h2⟩ := delegScanAux text.data.length text.data le_rfl
  exact ⟨by simp [parseResponse, delegTokens, h1], h2⟩

theorem foldl_saveMemory_history :
    ∀ (mems : List MemRecord) (st : Store),
      (mems.foldl saveMemory st).history = st.history := by
  intro mems
  induction mems with
  | nil => intro st; rfl
  | cons m mems ih =>
    intro st
    rw [List.foldl_cons]
    rw [ih]
    rfl

theorem storeMemories_history (a : AgentResponse) (st : Store) :
    (storeMemories a st).history = st.history := by
  unfold storeMemories
  cases a.memoriesToStore with
  | some mems => exact foldl_saveMemory_history mems st
  | none => rfl

/-- C1 (counterexample): on a backend whose final answer contains a
directive, `chat` persists the raw final-answer text — directives
included — as the assistant turn, while the returned visible text has the
directive stripped, so the persisted content differs from the returned
`visibleText`. -/
theorem chat_persists_raw_text_cex :
    (chat { role := "orchestrator", systemPrompt := "sys",
            tools := ([] : List (ToolDef Unit)) }
        [{ stopReason := "end_turn",
           content := [ContentBlock.text "Hi [REMEMBER:fact|x]"] }]
        emptyStore () "hello").map
        (fun p => ((p.2.1.history.map Turn.content).getLast?, p.1.content)) =
      some (some "Hi [REMEMBER:fact|x]", "Hi") ∧
    ("Hi [REMEMBER:fact|x]" : String) ≠ "Hi" := by
  exact ⟨rfl, by decide⟩

/-- C1 (amended): for every completed turn, the assistant turn persisted
to the session history by `chat` is tagged with the originating agent
role, but its content is the *raw* final-answer text (the first text
block, before directive stripping and trimming); the returned response is
extract applied to that raw text, so the persisted content equals the
returned `visibleText` only when stripping and trimming change nothing. -/
theorem chat_persists_raw_text {W : Type} (cfg : ChatConfig W)
    (script : List BackendResponse) (st : Store) (w : W) (u : String)
    (resp : AgentResponse) (st' : Store) (w' : W)
    (h : chat cfg script st w u = some (resp, st', w')) :
    ∃ raw, st'.history = st.history ++
        [{ role := "user", content := u, agentRole := none },
         { role := "assistant", content := raw, agentRole := some cfg.role }] ∧
      resp = parseResponse cfg.role raw := by
  unfold chat at h
  simp only [] at h
  split at h
  · exact absurd h (by simp)
  · simp only [Option.some.injEq, Prod.mk.injEq] at h
    obtain ⟨h1, h2, h3⟩ := h
    refine ⟨_, ?_, h1.symm⟩
    rw [← h2]
    rw [storeMemories_history]
    simp [saveConversationMessage, List.append_assoc]

/-- C1 (witness for the amended theorem). -/
theorem chat_persists_raw_text_witness :
    ∃ raw,
      ([{ role := "user", content := "hi", agentRole := none },
        { role := "assistant", content := "ok",
          agentRole := some "orchestrator" }] : List Turn) =
        emptyStore.history ++
          [{ role := "user", content := "hi", agentRole := none },
           { role := "assistant", content := raw,
             agentRole := some "orchestrator" }] ∧
      ({ content := "ok", delegateTo := none,
         memoriesToStore := none } : AgentResponse) =
        parseResponse "orchestrator" raw := by
  obtain ⟨raw, h1, h2⟩ := chat_persists_raw_text
    { role := "orchestrator", systemPrompt := "sys",
      tools := ([] : List (ToolDef Unit)) }
    [{ stopReason := "end_turn", content := [ContentBlock.text "ok"] }]
    emptyStore () "hi"
    { content := "ok", delegateTo := none, memoriesToStore := none }
    { history := [{ role := "user", content := "hi", agentRole := none },
                  { role := "assistant", content := "ok",
                    agentRole := some "orchestrator" }],
      memories := [], preferences := [] }
    () (by decide)
  exact ⟨raw, h1, h2⟩

/-- C4 (confirmed): when a requested tool is found and its execution
raises, the loop captures the failure as an error-flagged tool-result
block (`is_error`, `Error: <message>`) instead of propagating, and the
turn continues into the next backend round with that result appended to
the conversation. -/
theorem tool_failure_error_result_continues {W : Type} (cfg : ChatConfig W)
    (response : BackendResponse) (rest : List BackendResponse)
    (messages : List MessageParam) (w w1 : W) (call : ToolUseBlock)
    (calls : List ToolUseBlock) (tool : ToolDef W) (e : String)
    (hstop : response.stopReason = "tool_use")
    (hblocks : response.content =
      [ContentBlock.toolUse call.id call.name call.input])
    (hfind : cfg.tools.find? (fun t => t.name == call.name) = some tool)
    (hexec : tool.execute call.input w = (Except.error e, w1)) :
    executeTools cfg.tools (call :: calls) w =
      ({ tool_use_id := call.id, content := "Error: " ++ e,
         is_error := true } :: (executeTools cfg.tools calls w1).1,
       (executeTools cfg.tools calls w1).2) ∧
    chatLoop cfg (response :: rest) messages w =
      chatLoop cfg rest
        (messages ++
          [{ role := "assistant", content := MsgContent.blocks response.content },
           { role := "user", content := MsgContent.results
               [{ tool_use_id := call.id, content := "Error: " ++ e,
                  is_error := true }] }]) w1 := by
  have hstep : ∀ rest2 : List ToolUseBlock,
      executeTools cfg.tools (call :: rest2) w =
        ({ tool_use_id := call.id, content := "Error: " ++ e,
           is_error := true } :: (executeTools cfg.tools rest2 w1).1,
         (executeTools cfg.tools rest2 w1).2) := by
    intro rest2
    simp [executeTools, hfind, hexec]
  have hcalls : response.content.filterMap (fun b =>
      match b with
      | ContentBlock.toolUse id name input =>
        some (⟨id, name, input⟩ : ToolUseBlock)
      | _ => none) = [call] := by
    rw [hblocks]
    rfl
  refine ⟨hstep calls, ?_⟩
  have hexecTools : executeTools cfg.tools [call] w =
      ([{ tool_use_id := call.id, content := "Error: " ++ e,
          is_error := true }], w1) := by
    rw [hstep []]
    rfl
  simp only [chatLoop, hstop, if_pos, hcalls, hexecTools]

/-- C4 (witness). -/
theorem tool_failure_error_result_continues_witness :
    executeTools [failTool "t" "boom"]
        [(⟨"id1", "t", "input"⟩ : ToolUseBlock)] () =
      ({ tool_use_id := "id1", content := "Error: " ++ "boom",
         is_error := true } :: (executeTools [failTool "t" "boom"] [] ()).1,
       (executeTools [failTool "t" "boom"] [] ()).2) ∧
    chatLoop { role := "orchestrator", systemPrompt := "sys",
               tools := [failTool "t" "boom"] }
        [{ stopReason := "tool_use",
           content := [ContentBlock.toolUse "id1" "t" "input"] },
         { stopReason := "end_turn", content := [ContentBlock.text "ok"] }]
        [] () =
      chatLoop { role := "orchestrator", systemPrompt := "sys",
                 tools := [failTool "t" "boom"] }
        [{ stopReason := "end_turn", content := [ContentBlock.text "ok"] }]
        ([] ++
          [{ role := "assistant", content := MsgContent.blocks
               [ContentBlock.toolUse "id1" "t" "input"] },
           { role := "user", content := MsgContent.results
               [{ tool_use_id := "id1", content := "Error: " ++ "boom",
                  is_error := true }] }]) () :=
  tool_failure_error_result_continues
    { role := "orchestrator", systemPrompt := "sys",
      tools := [failTool "t" "boom"] }
    { stopReason := "tool_use",
      content := [ContentBlock.toolUse "id1" "t" "input"] }
    [{ stopReason := "end_turn", content := [ContentBlock.text "ok"] }]
    [] () () ⟨"id1", "t", "input"⟩ [] (failTool "t" "boom") "boom"
    rfl rfl rfl rfl

/-- C9 (confirmed): with a scripted backend that requests one tool
invocation in each of two successive rounds and then returns a final
answer, a turn executes exactly the two invocations, one at a time in
request order (witnessed by the world log), and terminates returning the
parsed final answer. -/
theorem scripted_backend_two_invocations
    (role sys name i1 i2 id1 id2 finalText u : String) :
    (chat { role := role, systemPrompt := sys, tools := [logTool name] }
        [{ stopReason := "tool_use",
           content := [ContentBlock.toolUse id1 name i1] },
         { stopReason := "tool_use",
           content := [ContentBlock.toolUse id2 name i2] },
         { stopReason := "end_turn",
           content := [ContentBlock.text finalText] }]
        emptyStore ([] : List (String × String)) u).map
        (fun p => (p.1, p.2.2)) =
      some (parseResponse role finalText, [(name, i1), (name, i2)]) := by
  simp [chat, chatLoop, executeTools, composeMessages, logTool, emptyStore,
    saveConversationMessage, getConversationHistory, List.findSome?]

/-- C10 (confirmed): when composing the outgoing message list, `chat`
appends the incoming user message to the replayed history exactly when
the history is empty or the content of its last entry differs from the user
message; otherwise the replayed copy stands in and no duplicate is
appended. -/
theorem composeMessages_dedup (history : List Turn) (u : String) :
    composeMessages history u =
      history.map (fun m =>
        ({ role := m.role, content := MsgContent.text m.content } : MessageParam)) ++
        (if history.getLast?.map Turn.content = some u then []
         else [{ role := "user", content := MsgContent.text u }]) := by
  unfold composeMessages
  simp only []
  by_cases hc : history.getLast?.map Turn.content = some u
  · obtain ⟨t, ht, hcont⟩ : ∃ t, history.getLast? = some t ∧ t.content = u := by
      cases hl : history.getLast? with
      | none => rw [hl] at hc; exact absurd hc (by simp)
      | some t =>
        rw [hl] at hc
        rw [Option.map_some'] at hc
        exact ⟨t, rfl, Option.some.inj hc⟩
    rw [if_pos hc, List.append_nil]
    rw [if_neg]
    intro hC
    rcases hC with h0 | hne
    · have hne2 : history ≠ [] := by
        intro hnil
        rw [hnil] at ht
        exact absurd ht (by simp)
      rw [List.length_map] at h0
      exact hne2 (List.length_eq_zero.mp h0)
    · apply hne
      rw [List.getLast?_map, ht]
      simp [hcont]
  · rw [if_neg hc]
    rw [if_pos]
    cases hl : history.getLast? with
    | none =>
      left
      rw [List.getLast?_eq_none_iff.mp hl]
      rfl
    | some t =>
      right
      rw [List.getLast?_map, hl]
      rw [Option.map_some']
      intro hEq
      apply hc
      rw [hl, Option.map_some']
      have hcont := Option.some.inj hEq
      exact congrArg some (MsgContent.text.inj hcont)

theorem getMemories_none_role (st : Store) (role : String) (limit : Nat) :
    getMemories st none (some role) limit =
      (st.memories.filter fun m => m.agentRole = some role).take limit := by
  unfold getMemories
  congr 1
  rw [List.filter_true]

/-- C7 (confirmed): for every role and store state, the built instruction
text is the static prompt of the role, then the section of all current
preferences (no role filter) grouped by category as `key: value` lines,
then at most 10 of the 20 most recent memories filtered to the calling
role as `[kind] content` lines, in exactly that order.  The builder is a
pure function of the store — its type performs no store writes. -/
theorem buildSystemPrompt_matches_spec (role systemPrompt : String)
    (st : Store) :
    buildSystemPrompt role systemPrompt st =
      buildSystemPromptSpec role systemPrompt st := by
  unfold buildSystemPrompt buildSystemPromptSpec prefsSectionSpec recentSectionSpec
  rw [getMemories_none_role]
  simp only [getAllPreferences]
  generalize (st.memories.filter fun m => m.agentRole = some role).take 20 = M
  generalize st.preferences = P
  by_cases hp : P.isEmpty <;> by_cases hM : M.isEmpty
  · have hp2 : ¬ P.length > 0 := by
      simp [List.isEmpty_iff] at hp
      simp [hp]
    have hM2 : ¬ M.length > 0 := by
      simp [List.isEmpty_iff] at hM
      simp [hM]
    rw [if_neg hp2, if_neg hM2, if_pos hp]
    rw [if_pos]
    · simp [String.append_empty]
    · simp [List.isEmpty_iff] at hM ⊢
      simp [hM]
  · have hp2 : ¬ P.length > 0 := by
      simp [List.isEmpty_iff] at hp
      simp [hp]
    have hM2 : M.length > 0 := by
      simp [List.isEmpty_iff] at hM
      cases M with
      | nil => exact absurd rfl hM
      | cons a l => simp
    rw [if_neg hp2, if_pos hM2, if_pos hp]
    rw [if_neg]
    · simp [String.append_empty, String.append_assoc]
    · simp [List.isEmpty_iff] at hM ⊢
      intro h10
      exact hM h10
  · have hp2 : P.length > 0 := by
      simp [List.isEmpty_iff] at hp
      cases P with
      | nil => exact absurd rfl hp
      | cons a l => simp
    have hM2 : ¬ M.length > 0 := by
      simp [List.isEmpty_iff] at hM
      simp [hM]
    rw [if_pos hp2, if_neg hM2, if_neg (by simpa [List.isEmpty_iff] using hp)]
    rw [if_pos]
    · simp [String.append_empty, String.append_assoc]
    · simp [List.isEmpty_iff] at hM ⊢
      simp [hM]
  · have hp2 : P.length > 0 := by
      simp [List.isEmpty_iff] at hp
      cases P with
      | nil => exact absurd rfl hp
      | cons a l => simp
    have hM2 : M.length > 0 := by
      simp [List.isEmpty_iff] at hM
      cases M with
      | nil => exact absurd rfl hM
      | cons a l => simp
    rw [if_pos hp2, if_pos hM2, if_neg (by simpa [List.isEmpty_iff] using hp)]
    rw [if_neg]
    · simp [String.append_assoc]
    · simp [List.isEmpty_iff] at hM ⊢
      intro h10
      exact hM h10

end MyAiOffice
